import Mathlib

/-!
Shallow embedding of the transaction-processing program
(src/processing.rs, src/serializing.rs, src/main.rs).

Conventions of the embedding:
* Rust `u64` amounts are modelled as `Nat`.  The two subtraction sites are
  either guarded by the code itself (`process_withdrawal` checks
  `available > amount` before subtracting) or shown unreachable in the
  underflow case for accounts reachable from `Account.new`
  (see `held_no_underflow` below), so truncated `Nat` subtraction agrees
  with the machine subtraction everywhere it is exercised.
* The `HashMap<u32, Transaction>` of an account is modelled as an
  association list `List (Nat × Transaction)`; `lookupTx` models
  `HashMap::get` / `get_mut`, `insertTx` models `HashMap::insert`
  (replace the value stored under an existing key, otherwise add the
  entry), and `setTx` models writing through the reference returned by
  `get_mut`.  Only per-key operations are used by the code, so the
  representation is faithful.
* Rust strings are modelled as `List Char`; the amount codec of
  serializing.rs is embedded over `List Char` below.
-/

namespace TxProc

/-- `TransactionType` of processing.rs: the five transaction kinds. -/
inductive TransactionType where
  | Deposit
  | Withdrawal
  | Dispute
  | Resolve
  | Chargeback
deriving DecidableEq, Repr

/-- `TransactionRow` of processing.rs: one parsed input row.
The Rust field `r#type` is called `kind` here (`type` is not a valid
Lean field name); `client : u16`, `tx : u32`, `amount : u64` are
modelled as `Nat`. -/
structure TransactionRow where
  kind : TransactionType
  client : Nat
  tx : Nat
  amount : Nat
deriving DecidableEq, Repr

/-- `Resolution` of processing.rs. -/
inductive Resolution where
  | Resolve
  | Chargeback
deriving DecidableEq, Repr

/-- `Dispute` of processing.rs: the dispute state of a held transaction. -/
inductive Dispute where
  | None
  | Ongoing
  | Done (r : Resolution)
deriving DecidableEq, Repr

/-- `Transaction` of processing.rs: a retained (held) withdrawal. -/
structure Transaction where
  amount : Nat
  dispute : Dispute
deriving DecidableEq, Repr

/-- `Account` of processing.rs; `transactions` models the
`HashMap<u32, Transaction>` as an association list. -/
structure Account where
  client : Nat
  available : Nat
  held : Nat
  locked : Bool
  transactions : List (Nat × Transaction)
deriving DecidableEq, Repr

/-- Model of `HashMap::get` / the read part of `get_mut`: the value
stored under `key`, if present. -/
def lookupTx : List (Nat × Transaction) → Nat → Option Transaction
  | [], _ => none
  | (k, v) :: rest, key => if k = key then some v else lookupTx rest key

/-- Model of `HashMap::insert`: replace the value stored under an
existing key, otherwise add the entry. -/
def insertTx : List (Nat × Transaction) → Nat → Transaction → List (Nat × Transaction)
  | [], key, v => [(key, v)]
  | (k, w) :: rest, key, v =>
    if k = key then (k, v) :: rest else (k, w) :: insertTx rest key v

/-- Model of writing a new value through the mutable reference obtained
from `HashMap::get_mut`: replaces the value stored under `key` when the
key is present, and is the identity otherwise (the code only writes
after a successful `get_mut`). -/
def setTx : List (Nat × Transaction) → Nat → Transaction → List (Nat × Transaction)
  | [], _, _ => []
  | (k, w) :: rest, key, v =>
    if k = key then (k, v) :: rest else (k, w) :: setTx rest key v

/-- `Account::new` of processing.rs. -/
def Account.new (client : Nat) : Account :=
  { client := client, available := 0, held := 0, locked := false, transactions := [] }

/-- `Account::process_deposit` of processing.rs. -/
def Account.process_deposit (a : Account) (t : TransactionRow) : Account :=
  { a with available := a.available + t.amount }

/-- `Account::process_withdrawal` of processing.rs: strict guard
`available > amount`; on success subtract and record a held transaction
with dispute state `None` under the row's `tx` id. -/
def Account.process_withdrawal (a : Account) (t : TransactionRow) : Account :=
  if a.available > t.amount then
    { a with
        available := a.available - t.amount
        transactions := insertTx a.transactions t.tx ⟨t.amount, Dispute.None⟩ }
  else a

/-- `Account::process_dispute` of processing.rs: if the row's `tx` id is
held, flip `None` to `Ongoing` (only then), and add the stored amount to
`held` unconditionally. -/
def Account.process_dispute (a : Account) (t : TransactionRow) : Account :=
  match lookupTx a.transactions t.tx with
  | none => a
  | some e =>
    let e' := if e.dispute = Dispute.None then { e with dispute := Dispute.Ongoing } else e
    { a with
        held := a.held + e'.amount
        transactions := setTx a.transactions t.tx e' }

/-- `Account::process_resolve` of processing.rs: acts only when the
stored dispute state is exactly `Ongoing`. -/
def Account.process_resolve (a : Account) (t : TransactionRow) : Account :=
  match lookupTx a.transactions t.tx with
  | none => a
  | some e =>
    if e.dispute = Dispute.Ongoing then
      { a with
          held := a.held - e.amount
          available := a.available + e.amount
          transactions := setTx a.transactions t.tx { e with dispute := Dispute.Done Resolution.Resolve } }
    else a

/-- `Account::process_chargeback` of processing.rs: acts only when the
stored dispute state is exactly `Ongoing`; locks the account. -/
def Account.process_chargeback (a : Account) (t : TransactionRow) : Account :=
  match lookupTx a.transactions t.tx with
  | none => a
  | some e =>
    if e.dispute = Dispute.Ongoing then
      { a with
          held := a.held - e.amount
          locked := true
          transactions := setTx a.transactions t.tx { e with dispute := Dispute.Done Resolution.Chargeback } }
    else a

/-- `Account::process_transaction` of processing.rs: locked accounts
ignore every row; otherwise dispatch on the row kind. -/
def Account.process_transaction (a : Account) (t : TransactionRow) : Account :=
  if a.locked then a
  else
    match t.kind with
    | TransactionType.Deposit => a.process_deposit t
    | TransactionType.Withdrawal => a.process_withdrawal t
    | TransactionType.Dispute => a.process_dispute t
    | TransactionType.Resolve => a.process_resolve t
    | TransactionType.Chargeback => a.process_chargeback t

/-- Left fold of `process_transaction` over a row sequence: the
per-account part of the driver fold in `process_transactions`
(main.rs). -/
def Account.process_all (a : Account) (ts : List TransactionRow) : Account :=
  ts.foldl Account.process_transaction a

/-! ### Amount codec (serializing.rs), over `List Char` -/

/-- Decimal digit character, as produced by Rust's integer formatting. -/
def digitChar (n : Nat) : Char :=
  Char.ofNat (48 + n)

/-- Model of Rust's `u64::to_string` (the `x.to_string()` call in
`serialize_amount`): most-significant-first decimal digits of `n`. -/
def toDecimal (n : Nat) : List Char :=
  if _h : n < 10 then [digitChar n]
  else toDecimal (n / 10) ++ [digitChar (n % 10)]
decreasing_by
  exact Nat.div_lt_self (by omega) (by omega)

/-- `serialize_amount` of serializing.rs.  `0` renders as `"0.0"`;
otherwise the decimal string is split 4 digits from the right.  When the
decimal string has fewer than 4 digits, the Rust code evaluates
`amount_string.len() - 4` on `usize` and panics (debug: subtraction
overflow; release: the wrapped value is out of bounds for the slice
`&amount_string[..len]`); the panic is modelled as `none`. -/
def serialize_amount (x : Nat) : Option (List Char) :=
  if x = 0 then some ['0', '.', '0']
  else
    let amount_string := toDecimal x
    if amount_string.length < 4 then none
    else
      let len := amount_string.length - 4
      some (amount_string.take len ++ '.' :: amount_string.drop len)

/-- Model of Rust's `str::split('.').collect::<Vec<_>>()`: the maximal
runs between `'.'` separators; always non-empty. -/
def splitOnDot : List Char → List (List Char)
  | [] => [[]]
  | c :: cs =>
    if c = '.' then [] :: splitOnDot cs
    else
      match splitOnDot cs with
      | [] => [[c]]
      | p :: ps => (c :: p) :: ps

/-- Model of Rust's `format!("{:0<4}", right)`: pad on the right with
`'0'` to a minimum width of 4. -/
def padRight4 (s : List Char) : List Char :=
  s ++ List.replicate (4 - s.length) '0'

/-- Numeric value of a decimal digit string (most significant first). -/
def digitsVal (s : List Char) : Nat :=
  s.foldl (fun acc c => 10 * acc + (c.toNat - 48)) 0

/-- Model of Rust's `str::parse::<u64>()`: an optional leading `'+'`,
then at least one decimal digit, and the value must fit in 64 bits. -/
def rustParseU64 (s : List Char) : Option Nat :=
  let s' := if s.head? = some '+' then s.tail else s
  if s' ≠ [] ∧ s'.all Char.isDigit = true then
    if digitsVal s' < 2 ^ 64 then some (digitsVal s') else none
  else none

/-- `deserialize_amount` of serializing.rs: split the input on `'.'`,
take the first and last pieces (`split` always yields at least one
piece, so the two `ok_or_else` error branches of the Rust code are
unreachable), right-pad the last piece with zeros to 4 digits, append
it to the first piece and parse the result as a `u64`. -/
def deserialize_amount (s : List Char) : Option Nat :=
  let split_amount := splitOnDot s
  match split_amount.head?, split_amount.getLast? with
  | some left, some right => rustParseU64 (left ++ padRight4 right)
  | _, _ => none

/-! ### Association-list lemmas for the held-transaction mapping -/

theorem lookupTx_insertTx_self (l : List (Nat × Transaction)) (k : Nat) (v : Transaction) :
    lookupTx (insertTx l k v) k = some v := by
  induction l with
  | nil => simp [insertTx, lookupTx]
  | cons p rest ih =>
    obtain ⟨k', w⟩ := p
    by_cases h : k' = k <;> simp [insertTx, lookupTx, h, ih]

theorem lookupTx_insertTx_ne (l : List (Nat × Transaction)) (k k' : Nat) (v : Transaction)
    (h : k' ≠ k) : lookupTx (insertTx l k v) k' = lookupTx l k' := by
  induction l with
  | nil => simp [insertTx, lookupTx, Ne.symm h]
  | cons p rest ih =>
    obtain ⟨k₀, w⟩ := p
    by_cases h0 : k₀ = k
    · subst h0
      simp [insertTx, lookupTx, Ne.symm h]
    · simp [insertTx, lookupTx, h0, ih]

theorem lookupTx_setTx_self (l : List (Nat × Transaction)) (k : Nat) (v e : Transaction)
    (h : lookupTx l k = some e) : lookupTx (setTx l k v) k = some v := by
  induction l with
  | nil => simp [lookupTx] at h
  | cons p rest ih =>
    obtain ⟨k₀, w⟩ := p
    by_cases h0 : k₀ = k
    · simp [setTx, lookupTx, h0]
    · simp [lookupTx, h0] at h
      simp [setTx, lookupTx, h0, ih h]

theorem lookupTx_setTx_ne (l : List (Nat × Transaction)) (k k' : Nat) (v : Transaction)
    (h : k' ≠ k) : lookupTx (setTx l k v) k' = lookupTx l k' := by
  induction l with
  | nil => simp [setTx]
  | cons p rest ih =>
    obtain ⟨k₀, w⟩ := p
    by_cases h0 : k₀ = k
    · subst h0
      simp [setTx, lookupTx, Ne.symm h]
    · simp [setTx, lookupTx, h0, ih]

theorem lookupTx_setTx_isSome (l : List (Nat × Transaction)) (k k' : Nat) (v : Transaction) :
    (lookupTx (setTx l k v) k').isSome = (lookupTx l k').isSome := by
  induction l with
  | nil => simp [setTx]
  | cons p rest ih =>
    obtain ⟨k₀, w⟩ := p
    by_cases h0 : k₀ = k
    · subst h0
      by_cases h1 : k₀ = k' <;> simp [setTx, lookupTx, h1]
    · by_cases h1 : k₀ = k'
      · subst h1
        simp [setTx, lookupTx, h0]
      · simp [setTx, lookupTx, h0, h1, ih]

theorem lookupTx_insertTx_isSome (l : List (Nat × Transaction)) (k k' : Nat) (v : Transaction) :
    (lookupTx (insertTx l k v) k').isSome = true ↔
      k' = k ∨ (lookupTx l k').isSome = true := by
  by_cases h : k' = k
  · subst h
    simp [lookupTx_insertTx_self]
  · simp [lookupTx_insertTx_ne l k k' v h, h]

/-! ### Claims C1 – C5 and C10: single-step behavior of the ledger -/

/-- C1: for an unlocked account, a Dispute row whose `tx` id is held adds
the stored amount to `held` unconditionally (also when the stored state is
already `Ongoing` or `Done`), flips the stored dispute state from `None`
to `Ongoing` exactly when it was `None`, and leaves `available` and
`locked` alone; when the id is absent the account is unchanged. -/
theorem spec_c1 (a : Account) (t : TransactionRow)
    (hl : a.locked = false) (hk : t.kind = TransactionType.Dispute) :
    (∀ e, lookupTx a.transactions t.tx = some e →
        a.process_transaction t =
          { a with
              held := a.held + e.amount
              transactions := setTx a.transactions t.tx
                (if e.dispute = Dispute.None then { e with dispute := Dispute.Ongoing } else e) })
    ∧ (lookupTx a.transactions t.tx = none → a.process_transaction t = a) := by
  constructor
  · intro e he
    by_cases hd : e.dispute = Dispute.None <;>
      simp [Account.process_transaction, hl, hk, Account.process_dispute, he, hd]
  · intro he
    simp [Account.process_transaction, hl, hk, Account.process_dispute, he]

theorem spec_c1_witness :
    (Account.mk 0 0 5 false [(7, ⟨3, Dispute.Ongoing⟩)]).process_transaction
        ⟨TransactionType.Dispute, 0, 7, 0⟩ =
      Account.mk 0 0 8 false [(7, ⟨3, Dispute.Ongoing⟩)] := by
  have h := (spec_c1 (Account.mk 0 0 5 false [(7, ⟨3, Dispute.Ongoing⟩)])
      ⟨TransactionType.Dispute, 0, 7, 0⟩ rfl rfl).1 ⟨3, Dispute.Ongoing⟩ (by decide)
  exact h.trans (by decide)

/-- C2: for an unlocked account, a Withdrawal row succeeds exactly when
`available > amount` (strict); on success `available` decreases by the
amount and a held transaction ⟨amount, None⟩ is inserted under the row's
`tx` id; when `amount = available` or `amount > available` the account is
returned unchanged and no error is produced. -/
theorem spec_c2 (a : Account) (t : TransactionRow)
    (hl : a.locked = false) (hk : t.kind = TransactionType.Withdrawal) :
    (a.available > t.amount →
        a.process_transaction t =
          { a with
              available := a.available - t.amount
              transactions := insertTx a.transactions t.tx ⟨t.amount, Dispute.None⟩ })
    ∧ (a.available ≤ t.amount → a.process_transaction t = a) := by
  constructor
  · intro hg
    simp [Account.process_transaction, hl, hk, Account.process_withdrawal, hg]
  · intro hg
    simp [Account.process_transaction, hl, hk, Account.process_withdrawal,
      Nat.not_lt.mpr hg]

theorem spec_c2_witness :
    ((Account.mk 1 20000 0 false []).process_transaction
          ⟨TransactionType.Withdrawal, 1, 4, 15000⟩ =
        Account.mk 1 5000 0 false [(4, ⟨15000, Dispute.None⟩)])
    ∧ ((Account.mk 1 20000 0 false []).process_transaction
          ⟨TransactionType.Withdrawal, 1, 5, 20000⟩ =
        Account.mk 1 20000 0 false []) := by
  constructor
  · have h := (spec_c2 (Account.mk 1 20000 0 false [])
        ⟨TransactionType.Withdrawal, 1, 4, 15000⟩ rfl rfl).1 (by decide)
    exact h.trans (by decide)
  · exact (spec_c2 (Account.mk 1 20000 0 false [])
        ⟨TransactionType.Withdrawal, 1, 5, 20000⟩ rfl rfl).2 (by decide)

/-- C3: a locked account ignores every transaction row of every kind
(the account value is returned unchanged), and consequently `locked`
stays `true` along any further sequence of rows: locking is monotonic. -/
theorem spec_c3 (a : Account) (hl : a.locked = true) :
    (∀ t, a.process_transaction t = a)
    ∧ (∀ ts, (a.process_all ts).locked = true) := by
  have h1 : ∀ t, a.process_transaction t = a := by
    intro t
    simp [Account.process_transaction, hl]
  refine ⟨h1, ?_⟩
  intro ts
  induction ts with
  | nil => exact hl
  | cons t ts ih =>
    simpa [Account.process_all, h1] using ih

theorem spec_c3_witness :
    (Account.mk 0 0 0 true []).process_transaction ⟨TransactionType.Deposit, 0, 0, 20000⟩ =
        Account.mk 0 0 0 true []
    ∧ ((Account.mk 0 0 0 true []).process_all
        [⟨TransactionType.Deposit, 0, 0, 20000⟩,
         ⟨TransactionType.Withdrawal, 0, 1, 10000⟩]).locked = true := by
  have h := spec_c3 (Account.mk 0 0 0 true []) rfl
  exact ⟨h.1 ⟨TransactionType.Deposit, 0, 0, 20000⟩,
    h.2 [⟨TransactionType.Deposit, 0, 0, 20000⟩, ⟨TransactionType.Withdrawal, 0, 1, 10000⟩]⟩

/-- C4: for an unlocked account, a Resolve row acts exactly when the
row's `tx` id is held with dispute state exactly `Ongoing`: the state
becomes `Done Resolution.Resolve`, `held` decreases by the stored amount and
`available` increases by it; when the id is absent, or the stored state
is `None` or `Done`, the account is unchanged (a repeated Resolve after
`Done` is a no-op). -/
theorem spec_c4 (a : Account) (t : TransactionRow)
    (hl : a.locked = false) (hk : t.kind = TransactionType.Resolve) :
    (∀ e, lookupTx a.transactions t.tx = some e → e.dispute = Dispute.Ongoing →
        a.process_transaction t =
          { a with
              held := a.held - e.amount
              available := a.available + e.amount
              transactions := setTx a.transactions t.tx
                { e with dispute := Dispute.Done Resolution.Resolve } })
    ∧ (∀ e, lookupTx a.transactions t.tx = some e → e.dispute ≠ Dispute.Ongoing →
        a.process_transaction t = a)
    ∧ (lookupTx a.transactions t.tx = none → a.process_transaction t = a) := by
  refine ⟨?_, ?_, ?_⟩
  · intro e he hd
    simp [Account.process_transaction, hl, hk, Account.process_resolve, he, hd]
  · intro e he hd
    simp [Account.process_transaction, hl, hk, Account.process_resolve, he, hd]
  · intro he
    simp [Account.process_transaction, hl, hk, Account.process_resolve, he]

theorem spec_c4_witness :
    ((Account.mk 0 10000 10000 false [(1, ⟨10000, Dispute.Ongoing⟩)]).process_transaction
          ⟨TransactionType.Resolve, 0, 1, 0⟩ =
        Account.mk 0 20000 0 false [(1, ⟨10000, Dispute.Done Resolution.Resolve⟩)])
    ∧ ((Account.mk 0 20000 0 false [(1, ⟨10000, Dispute.Done Resolution.Resolve⟩)]).process_transaction
          ⟨TransactionType.Resolve, 0, 1, 0⟩ =
        Account.mk 0 20000 0 false [(1, ⟨10000, Dispute.Done Resolution.Resolve⟩)]) := by
  constructor
  · have h := (spec_c4 (Account.mk 0 10000 10000 false [(1, ⟨10000, Dispute.Ongoing⟩)])
        ⟨TransactionType.Resolve, 0, 1, 0⟩ rfl rfl).1 ⟨10000, Dispute.Ongoing⟩ (by decide) rfl
    exact h.trans (by decide)
  · exact (spec_c4 (Account.mk 0 20000 0 false [(1, ⟨10000, Dispute.Done Resolution.Resolve⟩)])
        ⟨TransactionType.Resolve, 0, 1, 0⟩ rfl rfl).2.1
      ⟨10000, Dispute.Done Resolution.Resolve⟩ (by decide) (by decide)

/-- C5: for an unlocked account, a Chargeback row acts exactly when the
row's `tx` id is held with dispute state exactly `Ongoing`: the state
becomes `Done Resolution.Chargeback`, `held` decreases by the stored amount and
the account is locked, while `available` is untouched; when the id is
absent, or the stored state is `None` or `Done`, the account is
unchanged. -/
theorem spec_c5 (a : Account) (t : TransactionRow)
    (hl : a.locked = false) (hk : t.kind = TransactionType.Chargeback) :
    (∀ e, lookupTx a.transactions t.tx = some e → e.dispute = Dispute.Ongoing →
        a.process_transaction t =
          { a with
              held := a.held - e.amount
              locked := true
              transactions := setTx a.transactions t.tx
                { e with dispute := Dispute.Done Resolution.Chargeback } })
    ∧ (∀ e, lookupTx a.transactions t.tx = some e → e.dispute ≠ Dispute.Ongoing →
        a.process_transaction t = a)
    ∧ (lookupTx a.transactions t.tx = none → a.process_transaction t = a) := by
  refine ⟨?_, ?_, ?_⟩
  · intro e he hd
    simp [Account.process_transaction, hl, hk, Account.process_chargeback, he, hd]
  · intro e he hd
    simp [Account.process_transaction, hl, hk, Account.process_chargeback, he, hd]
  · intro he
    simp [Account.process_transaction, hl, hk, Account.process_chargeback, he]

theorem spec_c5_witness :
    (Account.mk 0 10000 10000 false [(1, ⟨10000, Dispute.Ongoing⟩)]).process_transaction
        ⟨TransactionType.Chargeback, 0, 1, 0⟩ =
      Account.mk 0 10000 0 true [(1, ⟨10000, Dispute.Done Resolution.Chargeback⟩)] := by
  have h := (spec_c5 (Account.mk 0 10000 10000 false [(1, ⟨10000, Dispute.Ongoing⟩)])
      ⟨TransactionType.Chargeback, 0, 1, 0⟩ rfl rfl).1 ⟨10000, Dispute.Ongoing⟩ (by decide) rfl
  exact h.trans (by decide)

/-- C10: for an unlocked account, a successful Withdrawal whose `tx` id
is already a key of the held-transaction mapping silently replaces the
stored entry: afterwards the entry under that id is ⟨row amount, None⟩
whatever the previous amount and dispute state were (also `Ongoing` or
`Done`), every other key is untouched, and `held` and `locked` are
unchanged. -/
theorem spec_c10 (a : Account) (t : TransactionRow)
    (hl : a.locked = false) (hk : t.kind = TransactionType.Withdrawal)
    (hg : a.available > t.amount)
    (_hs : (lookupTx a.transactions t.tx).isSome = true) :
    lookupTx (a.process_transaction t).transactions t.tx = some ⟨t.amount, Dispute.None⟩
    ∧ (a.process_transaction t).held = a.held
    ∧ (a.process_transaction t).locked = a.locked
    ∧ (∀ k, k ≠ t.tx →
        lookupTx (a.process_transaction t).transactions k = lookupTx a.transactions k) := by
  have hp : a.process_transaction t =
      { a with
          available := a.available - t.amount
          transactions := insertTx a.transactions t.tx ⟨t.amount, Dispute.None⟩ } := by
    simp [Account.process_transaction, hl, hk, Account.process_withdrawal, hg]
  refine ⟨?_, ?_, ?_, ?_⟩
  · rw [hp]
    exact lookupTx_insertTx_self a.transactions t.tx ⟨t.amount, Dispute.None⟩
  · rw [hp]
  · rw [hp]
  · intro k hke
    rw [hp]
    exact lookupTx_insertTx_ne a.transactions t.tx k ⟨t.amount, Dispute.None⟩ hke

theorem spec_c10_witness :
    lookupTx ((Account.mk 0 30000 10000 false
          [(1, ⟨10000, Dispute.Ongoing⟩), (2, ⟨5000, Dispute.None⟩)]).process_transaction
        ⟨TransactionType.Withdrawal, 0, 1, 20000⟩).transactions 1 =
      some ⟨20000, Dispute.None⟩
    ∧ ((Account.mk 0 30000 10000 false
          [(1, ⟨10000, Dispute.Ongoing⟩), (2, ⟨5000, Dispute.None⟩)]).process_transaction
        ⟨TransactionType.Withdrawal, 0, 1, 20000⟩).held = 10000
    ∧ lookupTx ((Account.mk 0 30000 10000 false
          [(1, ⟨10000, Dispute.Ongoing⟩), (2, ⟨5000, Dispute.None⟩)]).process_transaction
        ⟨TransactionType.Withdrawal, 0, 1, 20000⟩).transactions 2 =
      some ⟨5000, Dispute.None⟩ := by
  have h := spec_c10 (Account.mk 0 30000 10000 false
      [(1, ⟨10000, Dispute.Ongoing⟩), (2, ⟨5000, Dispute.None⟩)])
      ⟨TransactionType.Withdrawal, 0, 1, 20000⟩ rfl rfl (by decide) (by decide)
  exact ⟨h.1, h.2.1, h.2.2.2 2 (by decide)⟩

/-! ### The held-balance invariant (for C9) -/

/-- Contribution of one held transaction to the lower bound on `held`:
its amount while its dispute is `Ongoing`, `0` otherwise. -/
def ongoingAmount (e : Transaction) : Nat :=
  if e.dispute = Dispute.Ongoing then e.amount else 0

/-- Sum of the amounts of the currently `Ongoing` entries of a
held-transaction mapping (duplicates of the sum counted per list
entry). -/
def sumOngoing (l : List (Nat × Transaction)) : Nat :=
  (l.map (fun p => ongoingAmount p.2)).sum

theorem ongoingAmount_le_sumOngoing (l : List (Nat × Transaction)) (k : Nat) (e : Transaction)
    (h : lookupTx l k = some e) : ongoingAmount e ≤ sumOngoing l := by
  induction l with
  | nil => simp [lookupTx] at h
  | cons p rest ih =>
    obtain ⟨k₀, w⟩ := p
    by_cases h0 : k₀ = k
    · simp [lookupTx, h0] at h
      subst h
      simp [sumOngoing]
    · simp [lookupTx, h0] at h
      have := ih h
      simp only [sumOngoing, List.map_cons, List.sum_cons] at this ⊢
      omega

theorem sumOngoing_setTx (l : List (Nat × Transaction)) (k : Nat) (v e : Transaction)
    (h : lookupTx l k = some e) :
    sumOngoing (setTx l k v) + ongoingAmount e = sumOngoing l + ongoingAmount v := by
  induction l with
  | nil => simp [lookupTx] at h
  | cons p rest ih =>
    obtain ⟨k₀, w⟩ := p
    by_cases h0 : k₀ = k
    · simp [lookupTx, h0] at h
      subst h
      simp only [setTx, h0, if_true, sumOngoing, List.map_cons, List.sum_cons]
      omega
    · simp [lookupTx, h0] at h
      have := ih h
      simp only [setTx, h0, if_false, sumOngoing, List.map_cons, List.sum_cons] at this ⊢
      omega

theorem sumOngoing_insertTx_none (l : List (Nat × Transaction)) (k : Nat) (v : Transaction)
    (h : lookupTx l k = none) :
    sumOngoing (insertTx l k v) = sumOngoing l + ongoingAmount v := by
  induction l with
  | nil => simp [insertTx, sumOngoing]
  | cons p rest ih =>
    obtain ⟨k₀, w⟩ := p
    by_cases h0 : k₀ = k
    · simp [lookupTx, h0] at h
    · simp [lookupTx, h0] at h
      have := ih h
      simp only [insertTx, h0, if_false, sumOngoing, List.map_cons, List.sum_cons] at this ⊢
      omega

theorem insertTx_eq_setTx (l : List (Nat × Transaction)) (k : Nat) (v e : Transaction)
    (h : lookupTx l k = some e) : insertTx l k v = setTx l k v := by
  induction l with
  | nil => simp [lookupTx] at h
  | cons p rest ih =>
    obtain ⟨k₀, w⟩ := p
    by_cases h0 : k₀ = k
    · simp [insertTx, setTx, h0]
    · simp [lookupTx, h0] at h
      simp [insertTx, setTx, h0, ih h]

/-- The per-account invariant: `held` dominates the total amount of the
`Ongoing` entries of the mapping. -/
def heldInv (a : Account) : Prop :=
  sumOngoing a.transactions ≤ a.held

theorem heldInv_new (c : Nat) : heldInv (Account.new c) := by
  simp [heldInv, Account.new, sumOngoing]

theorem heldInv_process_transaction (a : Account) (t : TransactionRow)
    (h : heldInv a) : heldInv (a.process_transaction t) := by
  unfold Account.process_transaction
  by_cases hl : a.locked
  · simpa [hl] using h
  · simp only [hl, if_false, Bool.false_eq_true]
    cases hk : t.kind with
    | Deposit =>
      simpa [Account.process_deposit, heldInv] using h
    | Withdrawal =>
      unfold Account.process_withdrawal
      by_cases hg : a.available > t.amount
      · simp only [hg, if_true]
        cases he : lookupTx a.transactions t.tx with
        | none =>
          have := sumOngoing_insertTx_none a.transactions t.tx ⟨t.amount, Dispute.None⟩ he
          simp only [heldInv] at h ⊢
          simp [this, ongoingAmount]
          omega
        | some e =>
          rw [insertTx_eq_setTx a.transactions t.tx ⟨t.amount, Dispute.None⟩ e he]
          have := sumOngoing_setTx a.transactions t.tx ⟨t.amount, Dispute.None⟩ e he
          simp only [heldInv] at h ⊢
          simp only [ongoingAmount] at this
          simp at this
          omega
      · simpa [hg] using h
    | Dispute =>
      unfold Account.process_dispute
      cases he : lookupTx a.transactions t.tx with
      | none => simpa using h
      | some e =>
        simp only []
        set e' := if e.dispute = Dispute.None then { e with dispute := Dispute.Ongoing } else e with he'
        have hsum := sumOngoing_setTx a.transactions t.tx e' e he
        have hamt : e'.amount = e.amount := by
          rw [he']
          by_cases hd : e.dispute = Dispute.None <;> simp [hd]
        have hbound : ongoingAmount e' ≤ e.amount := by
          rw [he']
          by_cases hd : e.dispute = Dispute.None
          · simp [hd, ongoingAmount]
          · simp only [hd, if_false, ongoingAmount]
            split <;> omega
        simp only [heldInv] at h ⊢
        omega
    | Resolve =>
      unfold Account.process_resolve
      cases he : lookupTx a.transactions t.tx with
      | none => simpa using h
      | some e =>
        by_cases hd : e.dispute = Dispute.Ongoing
        · simp only [hd, if_true]
          have hsum := sumOngoing_setTx a.transactions t.tx
            { e with dispute := Dispute.Done Resolution.Resolve } e he
          have hle := ongoingAmount_le_sumOngoing a.transactions t.tx e he
          simp only [heldInv] at h ⊢
          simp only [ongoingAmount, hd, if_true] at hsum hle
          simp at hsum
          omega
        · simpa [hd] using h
    | Chargeback =>
      unfold Account.process_chargeback
      cases he : lookupTx a.transactions t.tx with
      | none => simpa using h
      | some e =>
        by_cases hd : e.dispute = Dispute.Ongoing
        · simp only [hd, if_true]
          have hsum := sumOngoing_setTx a.transactions t.tx
            { e with dispute := Dispute.Done Resolution.Chargeback } e he
          have hle := ongoingAmount_le_sumOngoing a.transactions t.tx e he
          simp only [heldInv] at h ⊢
          simp only [ongoingAmount, hd, if_true] at hsum hle
          simp at hsum
          omega
        · simpa [hd] using h

theorem heldInv_process_all (a : Account) (ts : List TransactionRow)
    (h : heldInv a) : heldInv (a.process_all ts) := by
  induction ts generalizing a with
  | nil => simpa [Account.process_all] using h
  | cons t ts ih =>
    have : Account.process_all a (t :: ts) =
        Account.process_all (a.process_transaction t) ts := rfl
    rw [this]
    exact ih _ (heldInv_process_transaction a t h)

/-- C9: on any account reachable from `Account.new` by a sequence of
applied rows, whenever a Resolve or Chargeback reaches its held-balance
subtraction — i.e. the looked-up entry has dispute state `Ongoing` — the
stored amount is at most the current `held`, so the unsigned
`held -= amount` of the Rust code never underflows. -/
theorem spec_c9 (c : Nat) (ts : List TransactionRow) (k : Nat) (e : Transaction)
    (he : lookupTx ((Account.new c).process_all ts).transactions k = some e)
    (hd : e.dispute = Dispute.Ongoing) :
    e.amount ≤ ((Account.new c).process_all ts).held := by
  have hinv := heldInv_process_all (Account.new c) ts (heldInv_new c)
  have hle := ongoingAmount_le_sumOngoing ((Account.new c).process_all ts).transactions k e he
  simp only [ongoingAmount, hd, if_true] at hle
  exact hle.trans hinv

theorem spec_c9_witness :
    lookupTx ((Account.new 0).process_all
        [⟨TransactionType.Deposit, 0, 0, 20000⟩,
         ⟨TransactionType.Withdrawal, 0, 1, 10000⟩,
         ⟨TransactionType.Dispute, 0, 1, 0⟩]).transactions 1 =
      some ⟨10000, Dispute.Ongoing⟩
    ∧ 10000 ≤ ((Account.new 0).process_all
        [⟨TransactionType.Deposit, 0, 0, 20000⟩,
         ⟨TransactionType.Withdrawal, 0, 1, 10000⟩,
         ⟨TransactionType.Dispute, 0, 1, 0⟩]).held := by
  refine ⟨by decide, ?_⟩
  exact spec_c9 0
    [⟨TransactionType.Deposit, 0, 0, 20000⟩,
     ⟨TransactionType.Withdrawal, 0, 1, 10000⟩,
     ⟨TransactionType.Dispute, 0, 1, 0⟩] 1 ⟨10000, Dispute.Ongoing⟩ (by decide) rfl

/-! ### Key-set characterization of the mapping (for C8) -/

/-- One processing step changes the key set of the held-transaction
mapping exactly by adding the row's `tx` id when the row is a
successful withdrawal. -/
theorem lookupTx_process_isSome (a : Account) (t : TransactionRow) (k : Nat) :
    (lookupTx (a.process_transaction t).transactions k).isSome = true ↔
      ((lookupTx a.transactions k).isSome = true ∨
        (t.kind = TransactionType.Withdrawal ∧ a.locked = false ∧
          a.available > t.amount ∧ k = t.tx)) := by
  unfold Account.process_transaction
  by_cases hl : a.locked
  · simp [hl]
  · have hl' : a.locked = false := by simpa using hl
    simp only [hl, if_false, Bool.false_eq_true]
    cases hk : t.kind with
    | Deposit => simp [Account.process_deposit]
    | Withdrawal =>
      unfold Account.process_withdrawal
      by_cases hg : a.available > t.amount
      · simp only [hg, if_true]
        rw [lookupTx_insertTx_isSome]
        simp [hl', hg]
        tauto
      · simp [hg]
    | Dispute =>
      unfold Account.process_dispute
      cases he : lookupTx a.transactions t.tx with
      | none => simp
      | some e => simp [lookupTx_setTx_isSome]
    | Resolve =>
      unfold Account.process_resolve
      cases he : lookupTx a.transactions t.tx with
      | none => simp
      | some e =>
        by_cases hd : e.dispute = Dispute.Ongoing
        · simp [hd, lookupTx_setTx_isSome]
        · simp [hd]
    | Chargeback =>
      unfold Account.process_chargeback
      cases he : lookupTx a.transactions t.tx with
      | none => simp
      | some e =>
        by_cases hd : e.dispute = Dispute.Ongoing
        · simp [hd, lookupTx_setTx_isSome]
        · simp [hd]

/-- The `tx` ids of the rows of `ts` that are withdrawals and succeed
(account unlocked and `available > amount` at their turn), in order:
the specification's "withdrawals that successfully debited the
account". -/
def successfulWithdrawalIds : Account → List TransactionRow → List Nat
  | _, [] => []
  | a, t :: ts =>
    (if t.kind = TransactionType.Withdrawal ∧ a.locked = false ∧ a.available > t.amount
      then [t.tx] else [])
      ++ successfulWithdrawalIds (a.process_transaction t) ts

theorem lookupTx_process_all_isSome (ts : List TransactionRow) (a : Account) (k : Nat) :
    (lookupTx (a.process_all ts).transactions k).isSome = true ↔
      ((lookupTx a.transactions k).isSome = true ∨ k ∈ successfulWithdrawalIds a ts) := by
  induction ts generalizing a with
  | nil => simp [Account.process_all, successfulWithdrawalIds]
  | cons t ts ih =>
    have hstep : Account.process_all a (t :: ts) =
        Account.process_all (a.process_transaction t) ts := rfl
    rw [hstep, ih, lookupTx_process_isSome]
    simp only [successfulWithdrawalIds, List.mem_append]
    by_cases hc : t.kind = TransactionType.Withdrawal ∧ a.locked = false ∧
        a.available > t.amount
    · obtain ⟨h1, h2, h3⟩ := hc
      simp [h1, h2, h3]
      tauto
    · have : (if t.kind = TransactionType.Withdrawal ∧ a.locked = false ∧
          a.available > t.amount then [t.tx] else []) = [] := by
        simp [hc]
      rw [this]
      simp only [List.not_mem_nil, false_or]
      constructor
      · rintro ((h | h) | h)
        · exact Or.inl h
        · exact absurd ⟨h.1, h.2.1, h.2.2.1⟩ hc
        · exact Or.inr h
      · rintro (h | h)
        · exact Or.inl (Or.inl h)
        · exact Or.inr h

/-- Dispute, Resolve and Chargeback rows whose `tx` id is not a key of
the mapping leave the account unchanged. -/
theorem process_transaction_unknown_id (a : Account) (t : TransactionRow)
    (hk : t.kind = TransactionType.Dispute ∨ t.kind = TransactionType.Resolve ∨
      t.kind = TransactionType.Chargeback)
    (he : lookupTx a.transactions t.tx = none) :
    a.process_transaction t = a := by
  unfold Account.process_transaction
  by_cases hl : a.locked
  · simp [hl]
  · rcases hk with hk | hk | hk <;>
      simp [hl, hk, Account.process_dispute, Account.process_resolve,
        Account.process_chargeback, he]

/-- C8: on any account reachable from `Account.new`, the keys of the
held-transaction mapping are exactly the `tx` ids of the withdrawals
that succeeded along the way; hence a Dispute, Resolve or Chargeback
referencing any other id — a deposit's id, a rejected withdrawal's id,
or an unseen id — leaves the account unchanged. -/
theorem spec_c8 (c : Nat) (ts : List TransactionRow) :
    (∀ k, (lookupTx ((Account.new c).process_all ts).transactions k).isSome = true ↔
        k ∈ successfulWithdrawalIds (Account.new c) ts)
    ∧ (∀ t, (t.kind = TransactionType.Dispute ∨ t.kind = TransactionType.Resolve ∨
          t.kind = TransactionType.Chargeback) →
        t.tx ∉ successfulWithdrawalIds (Account.new c) ts →
        ((Account.new c).process_all ts).process_transaction t =
          (Account.new c).process_all ts) := by
  have hkeys : ∀ k, (lookupTx ((Account.new c).process_all ts).transactions k).isSome = true ↔
      k ∈ successfulWithdrawalIds (Account.new c) ts := by
    intro k
    rw [lookupTx_process_all_isSome]
    simp [Account.new, lookupTx]
  refine ⟨hkeys, ?_⟩
  intro t hk hmem
  have hnone : lookupTx ((Account.new c).process_all ts).transactions t.tx = none := by
    rcases hres : lookupTx ((Account.new c).process_all ts).transactions t.tx with _ | e
    · rfl
    · exact absurd ((hkeys t.tx).mp (by simp [hres])) hmem
  exact process_transaction_unknown_id _ t hk hnone

theorem spec_c8_witness :
    (lookupTx ((Account.new 0).process_all
        [⟨TransactionType.Deposit, 0, 0, 20000⟩,
         ⟨TransactionType.Withdrawal, 0, 1, 10000⟩]).transactions 1).isSome = true
    ∧ ((Account.new 0).process_all
        [⟨TransactionType.Deposit, 0, 0, 20000⟩,
         ⟨TransactionType.Withdrawal, 0, 1, 10000⟩]).process_transaction
        ⟨TransactionType.Dispute, 0, 0, 0⟩ =
      (Account.new 0).process_all
        [⟨TransactionType.Deposit, 0, 0, 20000⟩,
         ⟨TransactionType.Withdrawal, 0, 1, 10000⟩] := by
  have h := spec_c8 0
    [⟨TransactionType.Deposit, 0, 0, 20000⟩, ⟨TransactionType.Withdrawal, 0, 1, 10000⟩]
  refine ⟨(h.1 1).mpr (by decide), ?_⟩
  exact h.2 ⟨TransactionType.Dispute, 0, 0, 0⟩ (Or.inl rfl) (by decide)

/-! ### Decimal-representation lemmas (for C6 and C7) -/

theorem toDecimal_eq_of_lt (n : Nat) (h : n < 10) : toDecimal n = [digitChar n] := by
  rw [toDecimal]
  simp [h]

theorem toDecimal_eq_of_ge (n : Nat) (h : 10 ≤ n) :
    toDecimal n = toDecimal (n / 10) ++ [digitChar (n % 10)] := by
  rw [toDecimal]
  simp [Nat.not_lt.mpr h]

theorem digitChar_isDigit (n : Nat) (h : n < 10) : (digitChar n).isDigit = true := by
  interval_cases n <;> decide

theorem digitChar_toNat (n : Nat) (h : n < 10) : (digitChar n).toNat = 48 + n := by
  interval_cases n <;> decide

theorem isDigit_ne_dot (c : Char) (h : c.isDigit = true) : c ≠ '.' := by
  intro he
  subst he
  exact absurd h (by decide)

theorem isDigit_ne_plus (c : Char) (h : c.isDigit = true) : c ≠ '+' := by
  intro he
  subst he
  exact absurd h (by decide)

theorem toDecimal_ne_nil (n : Nat) : toDecimal n ≠ [] := by
  by_cases h : n < 10
  · simp [toDecimal_eq_of_lt n h]
  · simp [toDecimal_eq_of_ge n (by omega)]

theorem toDecimal_all_isDigit (n : Nat) : ∀ c ∈ toDecimal n, c.isDigit = true := by
  induction n using Nat.strong_induction_on with
  | _ n ih =>
    by_cases h : n < 10
    · rw [toDecimal_eq_of_lt n h]
      intro c hc
      simp at hc
      subst hc
      exact digitChar_isDigit n h
    · rw [toDecimal_eq_of_ge n (by omega)]
      intro c hc
      rcases List.mem_append.mp hc with hc | hc
      · exact ih (n / 10) (Nat.div_lt_self (by omega) (by omega)) c hc
      · simp at hc
        subst hc
        exact digitChar_isDigit (n % 10) (Nat.mod_lt _ (by omega))

theorem digitsVal_append_singleton (l : List Char) (c : Char) :
    digitsVal (l ++ [c]) = 10 * digitsVal l + (c.toNat - 48) := by
  simp [digitsVal, List.foldl_append]

theorem digitsVal_toDecimal (n : Nat) : digitsVal (toDecimal n) = n := by
  induction n using Nat.strong_induction_on with
  | _ n ih =>
    by_cases h : n < 10
    · rw [toDecimal_eq_of_lt n h]
      simp [digitsVal, digitChar_toNat n h]
    · rw [toDecimal_eq_of_ge n (by omega), digitsVal_append_singleton,
        ih (n / 10) (Nat.div_lt_self (by omega) (by omega)),
        digitChar_toNat (n % 10) (Nat.mod_lt _ (by omega))]
      omega

theorem toDecimal_length_ge (k : Nat) : ∀ n, 10 ^ k ≤ n → k + 1 ≤ (toDecimal n).length := by
  induction k with
  | zero =>
    intro n _
    cases hl : toDecimal n with
    | nil => exact absurd hl (toDecimal_ne_nil n)
    | cons a l => simp
  | succ k ih =>
    intro n h
    have h10 : 10 ≤ n := by
      calc 10 = 10 ^ 1 := by norm_num
      _ ≤ 10 ^ (k + 1) := Nat.pow_le_pow_right (by omega) (by omega)
      _ ≤ n := h
    rw [toDecimal_eq_of_ge n h10]
    have hdiv : 10 ^ k ≤ n / 10 := by
      rw [Nat.le_div_iff_mul_le (by omega)]
      calc 10 ^ k * 10 = 10 ^ (k + 1) := by ring
      _ ≤ n := h
    have := ih (n / 10) hdiv
    simp only [List.length_append, List.length_cons, List.length_nil]
    omega

theorem toDecimal_length_le (k : Nat) : ∀ n, n < 10 ^ (k + 1) → (toDecimal n).length ≤ k + 1 := by
  induction k with
  | zero =>
    intro n h
    have h10 : n < 10 := by omega
    simp [toDecimal_eq_of_lt n h10]
  | succ k ih =>
    intro n h
    by_cases h10 : n < 10
    · simp [toDecimal_eq_of_lt n h10]
    · rw [toDecimal_eq_of_ge n (by omega)]
      have hdiv : n / 10 < 10 ^ (k + 1) := by
        rw [Nat.div_lt_iff_lt_mul (by omega)]
        calc n < 10 ^ (k + 1 + 1) := h
        _ = 10 ^ (k + 1) * 10 := by ring
      have := ih (n / 10) hdiv
      simp only [List.length_append, List.length_cons, List.length_nil]
      omega

theorem splitOnDot_no_dot (l : List Char) (h : ∀ c ∈ l, c ≠ '.') : splitOnDot l = [l] := by
  induction l with
  | nil => rfl
  | cons c cs ih =>
    have hc : c ≠ '.' := h c (by simp)
    have hcs := ih (fun d hd => h d (by simp [hd]))
    simp [splitOnDot, hc, hcs]

theorem splitOnDot_append (a b : List Char) (h : ∀ c ∈ a, c ≠ '.') :
    splitOnDot (a ++ '.' :: b) = a :: splitOnDot b := by
  induction a with
  | nil => simp [splitOnDot]
  | cons c cs ih =>
    have hc : c ≠ '.' := h c (by simp)
    have hcs := ih (fun d hd => h d (by simp [hd]))
    simp [splitOnDot, hc, hcs]

theorem rustParseU64_toDecimal (x : Nat) (hx : x < 2 ^ 64) :
    rustParseU64 (toDecimal x) = some x := by
  have hne := toDecimal_ne_nil x
  have hdig := toDecimal_all_isDigit x
  have hhead : ¬((toDecimal x).head? = some '+') := by
    cases hl : toDecimal x with
    | nil => exact absurd hl hne
    | cons c cs =>
      have hc : c.isDigit = true := hdig c (by simp [hl])
      simp only [List.head?, Option.some.injEq]
      exact isDigit_ne_plus c hc
  have hall : (toDecimal x).all Char.isDigit = true := List.all_eq_true.mpr hdig
  unfold rustParseU64
  simp only [hhead, if_false]
  rw [if_pos ⟨hne, hall⟩, digitsVal_toDecimal, if_pos hx]

/-- C6 (amended): encode/decode round-trip on the representable range,
except that `encode` only succeeds on `0` (rendered exactly `"0.0"`) and
on values of at least 4 decimal digits (`x ≥ 1000`, where the produced
string may have an empty integer part); for `1 ≤ x ≤ 999` the digit
string is shorter than 4 characters and the Rust `len - 4` slice
computation panics, modelled as `none`. -/
theorem spec_c6 (x : Nat) (hx : x < 2 ^ 64) :
    (x = 0 → serialize_amount x = some ['0', '.', '0'] ∧
        deserialize_amount ['0', '.', '0'] = some 0)
    ∧ (1 ≤ x → x ≤ 999 → serialize_amount x = none)
    ∧ (1000 ≤ x → ∃ s, serialize_amount x = some s ∧ deserialize_amount s = some x) := by
  refine ⟨?_, ?_, ?_⟩
  · intro h0
    subst h0
    exact ⟨by simp [serialize_amount], by decide⟩
  · intro h1 h999
    have hlen : (toDecimal x).length ≤ 3 := by
      have := toDecimal_length_le 2 x (by norm_num; omega)
      omega
    have hx0 : ¬ x = 0 := by omega
    have hlt : (toDecimal x).length < 4 := by omega
    simp [serialize_amount, hx0, hlt]
  · intro h1000
    have hlen : 4 ≤ (toDecimal x).length := by
      have h3 : (10 : Nat) ^ 3 ≤ x := by norm_num; omega
      exact toDecimal_length_ge 3 x h3
    have hx0 : ¬ x = 0 := by omega
    refine ⟨(toDecimal x).take ((toDecimal x).length - 4) ++
        '.' :: (toDecimal x).drop ((toDecimal x).length - 4), ?_, ?_⟩
    · simp [serialize_amount, hx0, Nat.not_lt.mpr hlen]
    · have hdig := toDecimal_all_isDigit x
      have hta : ∀ c ∈ (toDecimal x).take ((toDecimal x).length - 4), c ≠ '.' :=
        fun c hc => isDigit_ne_dot c (hdig c (List.mem_of_mem_take hc))
      have htb : ∀ c ∈ (toDecimal x).drop ((toDecimal x).length - 4), c ≠ '.' :=
        fun c hc => isDigit_ne_dot c (hdig c (List.mem_of_mem_drop hc))
      have hdlen : ((toDecimal x).drop ((toDecimal x).length - 4)).length = 4 := by
        simp only [List.length_drop]
        omega
      have hpad : padRight4 ((toDecimal x).drop ((toDecimal x).length - 4)) =
          (toDecimal x).drop ((toDecimal x).length - 4) := by
        simp [padRight4, hdlen]
      unfold deserialize_amount
      rw [splitOnDot_append _ _ hta, splitOnDot_no_dot _ htb]
      simp only [List.head?_cons, List.getLast?_cons_cons, List.getLast?_singleton]
      rw [hpad, List.take_append_drop]
      exact rustParseU64_toDecimal x hx

theorem spec_c6_counterexample : serialize_amount 5 = none := by
  simp [serialize_amount, toDecimal_eq_of_lt]

theorem spec_c6_witness :
    serialize_amount 15000 = some ['1', '.', '5', '0', '0', '0']
    ∧ deserialize_amount ['1', '.', '5', '0', '0', '0'] = some 15000 := by
  obtain ⟨s, hs1, hs2⟩ := (spec_c6 15000 (by norm_num)).2.2 (by norm_num)
  have he : serialize_amount 15000 = some ['1', '.', '5', '0', '0', '0'] := by
    simp [serialize_amount, toDecimal_eq_of_ge, toDecimal_eq_of_lt, digitChar]
  have hseq : s = ['1', '.', '5', '0', '0', '0'] := Option.some.inj (hs1.symm.trans he)
  subst hseq
  exact ⟨he, hs2⟩

/-- C7 (code-bug evidence): an amount string with no decimal point is
not rejected.  `split('.')` on such a string yields the one-element list
holding the whole string, so `first()` and `last()` both return the
whole string and the two `InvalidAmount` error branches are dead; the
string is concatenated with its own zero-padding and parsed: `"5"`
decodes to `55000` instead of failing. -/
theorem spec_c7 : deserialize_amount ['5'] = some 55000 := by decide

end TxProc
